import Mathlib

/-!
# Verification of the rag-bench retrieval and benchmarking core

This file gives a shallow embedding, in Lean 4, of the retrieval engine and
benchmark orchestration layer of the rag-bench repository:

* `retrievers/base.py` — the `BaseRetriever` wrapper (`setup_and_time`,
  `retrieve_and_time`) and `RetrievalResult`;
* `retrievers/bm25_retriever.py` — the sparse `BM25Retriever` (tokenizer and
  score-sorted retrieval over the third-party `BM25Okapi` scorer);
* `retrievers/vector_retriever.py` — the dense `VectorRetriever` (FAISS
  inner-product search over provider embeddings, save/load persistence);
* `retrievers/hybrid_retriever.py` — the `HybridRetriever` (reciprocal-rank
  fusion of the two sub-retrievers);
* `utils/profiler.py` — `SetupMetrics`;
* `benchmark/runner.py` — `BenchmarkRunner.run_all` and `ComboResult`.

Modelling conventions: Python floats are modelled by `ℚ`; wall-clock and
memory measurements, the external embedding provider, the external BM25Okapi
scoring function and the external LLM/judge calls are deterministic
parameters; Python exceptions are modelled by `Option`/`Except`; Python lists
are Lean lists, with `pyGet` reproducing Python's negative-index semantics.
-/

namespace RagBench

/-- A corpus chunk (`Chunk` of the data model; produced by external
ingestion). Only `text` is consulted by the retrievers. -/
structure Chunk where
  id : String
  source : String
  text : String
  position : Nat
deriving Repr, DecidableEq, Inhabited

/-- `utils/profiler.py` `SetupMetrics`: per-phase setup timings, all
defaulting to zero. -/
structure SetupMetrics where
  total_ms : ℚ := 0
  embedding_ms : ℚ := 0
  tokenizing_ms : ℚ := 0
  indexing_ms : ℚ := 0
  memory_peak_mb : ℚ := 0
  storage_mb : ℚ := 0
deriving Repr, DecidableEq, Inhabited

/-- `retrievers/base.py` `RetrievalResult`; the `metadata` dict holds the
retriever name and `top_k`. -/
structure RetrievalResult where
  chunks : List String
  latency_ms : ℚ
  retriever : String
  top_k : Nat
deriving Repr, DecidableEq

/-- Python list subscripting `xs[i]` with an `int` index: negative indices
count from the end; `none` models an `IndexError`. -/
def pyGet {α : Type} (xs : List α) (i : ℤ) : Option α :=
  let j : ℤ := if i < 0 then i + xs.length else i
  if 0 ≤ j then xs[j.toNat]? else none

/-- Left-to-right effectful map over a Python list comprehension whose body
may raise: the first failing element aborts the whole comprehension
(`none`). -/
def tryMap {α β : Type} (f : α → Option β) : List α → Option (List β)
  | [] => some []
  | x :: xs =>
    match f x, tryMap f xs with
    | some y, some ys => some (y :: ys)
    | _, _ => none

/-- The character class `[a-z0-9]` of the tokenizer's splitting regex. -/
def isAlnumLower (c : Char) : Bool :=
  ('a' ≤ c && c ≤ 'z') || ('0' ≤ c && c ≤ '9')

/-- Helper for `splitRuns`: `cur` is the (reversed) run of `[a-z0-9]`
characters read so far. -/
def splitRunsAux : List Char → List Char → List (List Char)
  | cur, [] => if cur.isEmpty then [] else [cur.reverse]
  | cur, c :: cs =>
    if isAlnumLower c then splitRunsAux (c :: cur) cs
    else if cur.isEmpty then splitRunsAux [] cs
    else cur.reverse :: splitRunsAux [] cs

/-- The maximal runs of `[a-z0-9]` characters of a string, in order: the
result of `re.split(r"[^a-z0-9]+", text)` with empty pieces discarded. -/
def splitRuns (l : List Char) : List (List Char) :=
  splitRunsAux [] l

/-- `BM25Retriever._tokenize`: lower-case, split on runs of characters
outside `[a-z0-9]`, discard empty tokens. (`str.lower` is modelled by
`Char.toLower`, which agrees with Python on the ASCII range — the spec's
"simple ASCII splitting rule".) -/
def tokenize (s : String) : List String :=
  (splitRuns (s.data.map Char.toLower)).map (fun cs => String.mk cs)

/-- Stable insertion step for `pySortDesc`: `x` is placed before the first
element with key `≤ key x`, so equal-key elements keep their original
relative order. -/
def insertDesc {α : Type} (key : α → ℚ) (x : α) : List α → List α
  | [] => [x]
  | y :: ys => if key x < key y then y :: insertDesc key x ys else x :: y :: ys

/-- Python's `sorted(l, key=key, reverse=True)`: a stable sort by
descending key. -/
def pySortDesc {α : Type} (key : α → ℚ) : List α → List α
  | [] => []
  | x :: xs => insertDesc key x (pySortDesc key xs)

theorem mem_insertDesc {α : Type} (key : α → ℚ) (x : α) (l : List α) (a : α) :
    a ∈ insertDesc key x l ↔ a = x ∨ a ∈ l := by
  induction l with
  | nil => simp [insertDesc]
  | cons y ys ih =>
    simp only [insertDesc]
    by_cases h : key x < key y
    · simp [h, ih]
      tauto
    · simp [h]

theorem perm_insertDesc {α : Type} (key : α → ℚ) (x : α) (l : List α) :
    (insertDesc key x l).Perm (x :: l) := by
  induction l with
  | nil => simp [insertDesc]
  | cons y ys ih =>
    simp only [insertDesc]
    by_cases h : key x < key y
    · simp only [if_pos h]
      exact (ih.cons y).trans (List.Perm.swap x y ys)
    · simp [h]

theorem perm_pySortDesc {α : Type} (key : α → ℚ) (l : List α) :
    (pySortDesc key l).Perm l := by
  induction l with
  | nil => simp [pySortDesc]
  | cons x xs ih =>
    exact (perm_insertDesc key x (pySortDesc key xs)).trans (ih.cons x)

theorem length_pySortDesc {α : Type} (key : α → ℚ) (l : List α) :
    (pySortDesc key l).length = l.length :=
  (perm_pySortDesc key l).length_eq

/-- Stability/order invariant of the insertion step: inserting `x`, which
relates by `R` to every element already present, preserves the combined
"descending key, ties resolved by `R`" pairwise order. -/
theorem pairwise_insertDesc {α : Type} (key : α → ℚ) (R : α → α → Prop)
    (x : α) (l : List α)
    (hl : l.Pairwise (fun a b => key b < key a ∨ (key a = key b ∧ R a b)))
    (hx : ∀ y ∈ l, R x y) :
    (insertDesc key x l).Pairwise
      (fun a b => key b < key a ∨ (key a = key b ∧ R a b)) := by
  induction l with
  | nil => simp [insertDesc]
  | cons y ys ih =>
    simp only [insertDesc]
    rcases List.pairwise_cons.mp hl with ⟨hy, hys⟩
    by_cases h : key x < key y
    · simp only [if_pos h]
      refine List.pairwise_cons.mpr ⟨?_, ih hys (fun z hz => hx z (.tail _ hz))⟩
      intro z hz
      rcases (mem_insertDesc key x ys z).mp hz with rfl | hz'
      · exact Or.inl h
      · exact hy z hz'
    · simp only [if_neg h]
      push_neg at h
      refine List.pairwise_cons.mpr ⟨?_, hl⟩
      intro z hz
      rcases List.mem_cons.mp hz with rfl | hz'
      · rcases lt_or_eq_of_le h with h' | h'
        · exact Or.inl h'
        · exact Or.inr ⟨h'.symm, hx z hz⟩
      · rcases hy z hz' with h' | ⟨h', _⟩
        · exact Or.inl (lt_of_lt_of_le h' h)
        · rcases lt_or_eq_of_le h with h'' | h''
          · exact Or.inl (h' ▸ h'')
          · exact Or.inr ⟨h''.symm.trans h', hx z (.tail _ hz')⟩

/-- A stable descending sort of an `R`-pairwise list is pairwise ordered by
"strictly greater key, or equal key and `R`" (i.e. descending with ties in
original order). -/
theorem pairwise_pySortDesc {α : Type} (key : α → ℚ) (R : α → α → Prop)
    (l : List α) (hl : l.Pairwise R) :
    (pySortDesc key l).Pairwise
      (fun a b => key b < key a ∨ (key a = key b ∧ R a b)) := by
  induction l with
  | nil => simp [pySortDesc]
  | cons x xs ih =>
    rcases List.pairwise_cons.mp hl with ⟨hx, hxs⟩
    refine pairwise_insertDesc key R x (pySortDesc key xs) (ih hxs) ?_
    intro y hy
    exact hx y ((perm_pySortDesc key xs).mem_iff.mp hy)

/-- `pySortDesc` commutes with `map` when the key factors through the map. -/
theorem pySortDesc_map {α β : Type} (key : β → ℚ) (g : α → β) (l : List α) :
    pySortDesc key (l.map g) = (pySortDesc (fun a => key (g a)) l).map g := by
  induction l with
  | nil => simp [pySortDesc]
  | cons x xs ih =>
    simp only [List.map_cons, pySortDesc, ih]
    generalize pySortDesc (fun a => key (g a)) xs = m
    induction m with
    | nil => simp [insertDesc]
    | cons y ys ihm =>
      simp only [List.map_cons, insertDesc]
      by_cases h : key (g x) < key (g y)
      · simp [h, ihm]
      · simp [h]

/-! ## Sparse retriever (`retrievers/bm25_retriever.py`) -/

/-- `BM25Retriever` state. `getScores` stands for the third-party
`rank_bm25.BM25Okapi.get_scores` (built once over the tokenized corpus): a
deterministic function from the tokenized corpus and tokenized query to one
relevance score per document; theorems quantify over it, witnesses
instantiate it concretely. -/
structure BM25Retriever where
  getScores : List (List String) → List String → List ℚ
  chunks : List Chunk := []
  corpusTokens : List (List String) := []
  setup_metrics : SetupMetrics := {}
  isSetup : Bool := false

/-- `BM25Retriever.setup`: store the corpus, tokenize every chunk and build
the BM25 index over the tokenized chunks. -/
def BM25Retriever.setup (r : BM25Retriever) (chunks : List Chunk) :
    BM25Retriever :=
  { r with
    chunks := chunks
    corpusTokens := chunks.map (fun c => tokenize c.text) }

/-- `BM25Retriever.retrieve`: score all documents against the tokenized
query, sort document indices by descending score (Python's stable `sorted`
with `reverse=True`), truncate to `top_k` and look the texts up; `none`
models an `IndexError` on the chunk lookup. -/
def BM25Retriever.retrieve (r : BM25Retriever) (query : String)
    (top_k : Nat) : Option (List String) :=
  let scores := r.getScores r.corpusTokens (tokenize query)
  let topIndices :=
    (pySortDesc (fun i => scores.getD i 0) (List.range scores.length)).take
      top_k
  tryMap (fun i => (r.chunks[i]?).map Chunk.text) topIndices

/-! ## Dense retriever (`retrievers/vector_retriever.py`) -/

/-- Inner product of two embedding vectors (`faiss.IndexFlatIP` scoring). -/
def dot (u v : List ℚ) : ℚ := (List.zipWith (· * ·) u v).sum

/-- `faiss` exact inner-product search over a flat index: indices of the
top `k` vectors by descending inner product with `q`, ties by insertion
order; when `k` exceeds the index size the result is padded with `-1`
(faiss's missing-neighbour marker) to length `k`. -/
def faissSearch (index : List (List ℚ)) (q : List ℚ) (k : Nat) : List ℤ :=
  let ranked :=
    pySortDesc (fun i => dot q (index.getD i [])) (List.range index.length)
  (ranked.take k).map Int.ofNat ++ List.replicate (k - index.length) (-1)

/-- `VectorRetriever` state. `embed` stands for the external
 sentence-transformer encoder composed with `faiss.normalize_L2`
(deterministic per the §6 provider contract); the same `embed` is applied
to chunks at setup and to queries at retrieval. -/
structure VectorRetriever where
  embed : String → List ℚ
  index : List (List ℚ) := []
  chunks : List Chunk := []
  setup_metrics : SetupMetrics := {}
  isSetup : Bool := false

/-- `VectorRetriever.setup`: embed every chunk text and add the vectors to
a fresh flat index; `embedMs`/`indexMs` are the two measured phase
durations recorded into the metrics. -/
def VectorRetriever.setup (r : VectorRetriever) (chunks : List Chunk)
    (embedMs indexMs : ℚ) : VectorRetriever :=
  { r with
    chunks := chunks
    index := chunks.map (fun c => r.embed c.text)
    setup_metrics :=
      { r.setup_metrics with embedding_ms := embedMs, indexing_ms := indexMs } }

/-- `VectorRetriever.retrieve`: embed the query, search the index for
`top_k` neighbours, and return
`[self.chunks[i].text for i in indices[0] if i < len(self.chunks)]` with
Python's subscript semantics (so the `-1` padding passes the filter and
indexes from the end); `none` models an `IndexError`. -/
def VectorRetriever.retrieve (r : VectorRetriever) (query : String)
    (top_k : Nat) : Option (List String) :=
  let indices := faissSearch r.index (r.embed query) top_k
  tryMap (fun i => (pyGet r.chunks i).map Chunk.text)
    (indices.filter (fun i => i < (r.chunks.length : ℤ)))

/-- `VectorRetriever.save`: persist the index and the chunk list (the two
on-disk artifacts, modelled as the written values). -/
def VectorRetriever.save (r : VectorRetriever) : List (List ℚ) × List Chunk :=
  (r.index, r.chunks)

/-- `VectorRetriever.load`: install a persisted index and chunk list and
mark the instance set up. The source performs no consistency check between
the two artifacts. -/
def VectorRetriever.load (r : VectorRetriever) (indexFile : List (List ℚ))
    (chunksFile : List Chunk) : VectorRetriever :=
  { r with index := indexFile, chunks := chunksFile, isSetup := true }

/-! ## Hybrid retriever (`retrievers/hybrid_retriever.py`) -/

/-- `HybridRetriever` state: owns a dense and a sparse sub-retriever plus
the RRF constant (default 60). -/
structure HybridRetriever where
  vector : VectorRetriever
  bm25 : BM25Retriever
  rrf_k : Nat := 60
  chunks : List Chunk := []
  setup_metrics : SetupMetrics := {}
  isSetup : Bool := false

/-- `HybridRetriever.setup`: set up both sub-retrievers, then aggregate
their phase metrics (`embedding_ms` from the dense one, `tokenizing_ms`
from the sparse one, `indexing_ms` as the sum of both). `total_ms` and
`memory_peak_mb` are left for the outer `setup_and_time`. -/
def HybridRetriever.setup (r : HybridRetriever) (chunks : List Chunk)
    (embedMs vecIndexMs : ℚ) : HybridRetriever :=
  let vec := r.vector.setup chunks embedMs vecIndexMs
  let bm := r.bm25.setup chunks
  { r with
    chunks := chunks
    vector := vec
    bm25 := bm
    setup_metrics :=
      { r.setup_metrics with
        embedding_ms := vec.setup_metrics.embedding_ms
        indexing_ms :=
          vec.setup_metrics.indexing_ms + bm.setup_metrics.indexing_ms
        tokenizing_ms := bm.setup_metrics.tokenizing_ms } }

/-- `rrf_scores[chunk] = rrf_scores.get(chunk, 0) + v` on an
insertion-ordered Python dict modelled as an association list: an existing
key keeps its position, a new key is appended. -/
def dictAdd (d : List (String × ℚ)) (k : String) (v : ℚ) :
    List (String × ℚ) :=
  match d with
  | [] => [(k, v)]
  | (k', v') :: rest =>
    if k' = k then (k', v' + v) :: rest else (k', v') :: dictAdd rest k v

/-- One `for rank, chunk in enumerate(results)` accumulation loop of
`HybridRetriever.retrieve`: add `1 / (rrf_k + rank + 1)` to each listed
chunk's running RRF score. -/
def rrfAccum (rrf_k : Nat) (d : List (String × ℚ)) (results : List String) :
    List (String × ℚ) :=
  results.enum.foldl
    (fun d p => dictAdd d p.2 (1 / ((rrf_k : ℚ) + p.1 + 1))) d

/-- `HybridRetriever.retrieve`: request `candidate_k = min(top_k * 3,
len(chunks))` results from each sub-retriever, accumulate RRF scores per
chunk text (dense list first, then sparse), sort by descending score
(stable, so ties keep dict insertion order) and return the first `top_k`
texts. -/
def HybridRetriever.retrieve (r : HybridRetriever) (query : String)
    (top_k : Nat) : Option (List String) := do
  let candidate_k := min (top_k * 3) r.chunks.length
  let vectorResults ← r.vector.retrieve query candidate_k
  let bm25Results ← r.bm25.retrieve query candidate_k
  let rrfScores :=
    rrfAccum r.rrf_k (rrfAccum r.rrf_k [] vectorResults) bm25Results
  let sortedChunks := pySortDesc (fun p => p.2) rrfScores
  return (sortedChunks.take top_k).map Prod.fst

/-! ## The RRF fusion rule as worded by the specification

These definitions follow the spec's description of reciprocal-rank fusion
(§4.3); the refinement theorem for claim C1 compares them with the
source-derived `HybridRetriever.retrieve`. -/

/-- Helper for `firstDedup`: `seen` holds the values already emitted. -/
def firstDedupAux (seen : List String) : List String → List String
  | [] => []
  | x :: xs =>
    if x ∈ seen then firstDedupAux seen xs
    else x :: firstDedupAux (x :: seen) xs

/-- The distinct values of a list, each at its first occurrence, in
first-encountered order. -/
def firstDedup (l : List String) : List String :=
  firstDedupAux [] l

/-- Modelled from the spec: the summed partial score a ranked sub-list
contributes to chunk text `t` — `1 / (rrf_k + r + 1)` for each 0-indexed
rank `r` at which `t` occurs, 0 when `t` is absent. -/
def rrfContrib (rrf_k : Nat) (results : List String) (t : String) : ℚ :=
  (results.enum.map
    (fun p => if p.2 = t then 1 / ((rrf_k : ℚ) + p.1 + 1) else 0)).sum

/-- Modelled from the spec: reciprocal-rank fusion of a dense and a sparse
candidate list — sum the partial scores per distinct chunk text, sort
distinct texts by summed score descending with ties in first-encountered
order (dense list scanned before sparse, in rank order), return the first
`top_k`. -/
def rrfFusionSpec (rrf_k top_k : Nat) (dense sparse : List String) :
    List String :=
  (pySortDesc
      (fun t => rrfContrib rrf_k dense t + rrfContrib rrf_k sparse t)
      (firstDedup (dense ++ sparse))).take top_k

/-! ## Base wrapper (`retrievers/base.py`) -/

/-- The two exception kinds a retrieval call can raise: the `RuntimeError`
guarding `retrieve_and_time` (the spec's `PreconditionViolation`) and a
list-subscript `IndexError` inside `retrieve`. -/
inductive RetrieverError where
  | preconditionViolation (name : String)
  | indexError
deriving DecidableEq, Repr

/-- `BaseRetriever.retrieve_and_time`, shared by all three retrievers:
raise the precondition `RuntimeError` unless `setup` has completed, else
run `retrieve` (whose own failure is an `IndexError`), measure the
wall-clock latency (`latency_ms`, a measurement parameter here) and wrap
the chunks into a `RetrievalResult`. -/
def retrieveAndTime (name : String) (isSetup : Bool)
    (doRetrieve : String → Nat → Option (List String)) (query : String)
    (top_k : Nat) (latency_ms : ℚ) : Except RetrieverError RetrievalResult :=
  if isSetup = false then .error (.preconditionViolation name)
  else
    match doRetrieve query top_k with
    | none => .error .indexError
    | some cs =>
      .ok { chunks := cs, latency_ms := latency_ms, retriever := name,
            top_k := top_k }

/-- `BaseRetriever.setup_and_time` specialised to `BM25Retriever`: run
`setup`, record the measured wall-clock total and memory growth, and mark
the instance query-ready. -/
def BM25Retriever.setupAndTime (r : BM25Retriever) (chunks : List Chunk)
    (totalMs memMb : ℚ) : BM25Retriever :=
  let r' := r.setup chunks
  { r' with
    setup_metrics :=
      { r'.setup_metrics with total_ms := totalMs, memory_peak_mb := memMb }
    isSetup := true }

/-- `BaseRetriever.setup_and_time` specialised to `VectorRetriever`. -/
def VectorRetriever.setupAndTime (r : VectorRetriever) (chunks : List Chunk)
    (embedMs indexMs totalMs memMb : ℚ) : VectorRetriever :=
  let r' := r.setup chunks embedMs indexMs
  { r' with
    setup_metrics :=
      { r'.setup_metrics with total_ms := totalMs, memory_peak_mb := memMb }
    isSetup := true }

/-- `BaseRetriever.setup_and_time` specialised to `HybridRetriever`:
`total_ms` and `memory_peak_mb` are measured once around the whole
composite setup. -/
def HybridRetriever.setupAndTime (r : HybridRetriever) (chunks : List Chunk)
    (embedMs vecIndexMs totalMs memMb : ℚ) : HybridRetriever :=
  let r' := r.setup chunks embedMs vecIndexMs
  { r' with
    setup_metrics :=
      { r'.setup_metrics with total_ms := totalMs, memory_peak_mb := memMb }
    isSetup := true }

/-! ## Benchmark runner (`benchmark/runner.py`) -/

/-- One judge-input sample accumulated per question and combination. -/
structure Sample where
  question : String
  answer : String
  contexts : List String
  ground_truth : String
deriving DecidableEq, Repr

/-- One `per_question` record of `BenchmarkRunner.run_all` (latencies are
stored rounded to one decimal by Python's `round(x, 1)`). -/
structure QRecord where
  question : String
  retrieval_ms : ℚ
  generation_ms : ℚ
  tokens : Nat
deriving DecidableEq, Repr

/-- Python's `round(x, 1)`: one decimal, halves to even. -/
def pyRound1 (x : ℚ) : ℚ :=
  let y := x * 10
  let f := Int.floor y
  let r := y - f
  let n : ℤ :=
    if r < 1 / 2 then f
    else if 1 / 2 < r then f + 1
    else if f % 2 = 0 then f else f + 1
  (n : ℚ) / 10

/-- `benchmark/runner.py` `ComboResult` (judge scores as an ordered
name-score mapping). -/
structure ComboResult where
  retriever_name : String
  generator_name : String
  setup_metrics : SetupMetrics
  avg_retrieval_ms : ℚ
  avg_generation_ms : ℚ
  avg_total_ms : ℚ
  avg_tokens : ℚ
  judge_scores : List (String × ℚ)
  per_question : List QRecord
deriving Repr, DecidableEq, Inhabited

/-- One combination's accumulator entry of `run_all`. -/
structure AccEntry where
  retrieval_times : List ℚ := []
  generation_times : List ℚ := []
  token_counts : List Nat := []
  samples : List Sample := []
  per_question : List QRecord := []
deriving DecidableEq, Repr

/-- The external collaborators and measurements `run_all` consumes: the
per-call retrieval/generation latencies and generation outputs (functions
of the (retriever, generator) combination and the question), the ground
truth mapping, the external judge, and each retriever's stored setup
metrics and retrieved contexts. -/
structure RunEnv where
  retrieval_ms : String × String → String → ℚ
  generation_ms : String × String → String → ℚ
  tokens_used : String × String → String → Nat
  answer : String × String → String → String
  contexts : String × String → String → List String
  ground_truth : String → String
  judge : List Sample → List (String × ℚ)
  setupMetricsOf : String → SetupMetrics

/-- The combination list of `run_all`: every retriever paired with every
generator, retrievers outermost (dict iteration order = insertion order of
the two name lists). -/
def combosOf (retNames genNames : List String) : List (String × String) :=
  retNames.flatMap (fun r => genNames.map (fun g => (r, g)))

/-- The measurements `run_all` appends to `acc[c]` for question `q`:
retrieval latency, generation latency, token count, judge sample, and the
(rounded) per-question record. -/
def pushEntry (env : RunEnv) (q : String) (c : String × String)
    (e : AccEntry) : AccEntry :=
  { retrieval_times := e.retrieval_times ++ [env.retrieval_ms c q]
    generation_times := e.generation_times ++ [env.generation_ms c q]
    token_counts := e.token_counts ++ [env.tokens_used c q]
    samples := e.samples ++
      [{ question := q, answer := env.answer c q,
         contexts := env.contexts c q,
         ground_truth := env.ground_truth q }]
    per_question := e.per_question ++
      [{ question := q, retrieval_ms := pyRound1 (env.retrieval_ms c q),
         generation_ms := pyRound1 (env.generation_ms c q),
         tokens := env.tokens_used c q }] }

/-- The inner-loop body of `run_all`'s query phase: run question `q`
against combination `c` and append the measurements to `acc[c]`. -/
def stepCombo (env : RunEnv) (q : String)
    (acc : String × String → AccEntry) (c : String × String) :
    String × String → AccEntry :=
  fun key => if key = c then pushEntry env q c (acc c) else acc key

/-- `BenchmarkRunner.run_all`: interleaved query phase (outer loop over
questions, inner loop over combinations), then one `ComboResult` per
combination with arithmetic-mean latencies over `n = len(questions)`. -/
def runAll (env : RunEnv) (retNames genNames : List String)
    (questions : List String) : List ComboResult :=
  let combos := combosOf retNames genNames
  let acc :=
    questions.foldl (fun a q => combos.foldl (stepCombo env q) a)
      (fun _ => {})
  let n := questions.length
  combos.map (fun c =>
    let data := acc c
    { retriever_name := c.1
      generator_name := c.2
      setup_metrics := env.setupMetricsOf c.1
      avg_retrieval_ms := data.retrieval_times.sum / n
      avg_generation_ms := data.generation_times.sum / n
      avg_total_ms := (data.retrieval_times.sum + data.generation_times.sum) / n
      avg_tokens := ((data.token_counts.map (fun t => (t : ℚ))).sum) / n
      judge_scores := env.judge data.samples
      per_question := data.per_question })

/-! ## Lemmas: tokenizer -/

theorem splitRunsAux_sound (cs : List Char) :
    ∀ cur, (∀ c ∈ cur, isAlnumLower c = true) →
      ∀ t ∈ splitRunsAux cur cs, t ≠ [] ∧ ∀ c ∈ t, isAlnumLower c = true := by
  induction cs with
  | nil =>
    intro cur hcur t ht
    simp only [splitRunsAux] at ht
    by_cases h : cur.isEmpty
    · simp [h] at ht
    · rw [if_neg h] at ht
      rcases List.mem_singleton.mp ht with rfl
      refine ⟨?_, ?_⟩
      · intro hrev
        exact h (by simp [List.isEmpty_iff, List.reverse_eq_nil_iff.mp hrev])
      · intro c hc
        exact hcur c (List.mem_reverse.mp hc)
  | cons c cs ih =>
    intro cur hcur t ht
    simp only [splitRunsAux] at ht
    by_cases h1 : isAlnumLower c
    · rw [if_pos h1] at ht
      refine ih (c :: cur) ?_ t ht
      intro x hx
      rcases List.mem_cons.mp hx with rfl | hx'
      · exact h1
      · exact hcur x hx'
    · rw [if_neg h1] at ht
      by_cases h2 : cur.isEmpty
      · rw [if_pos h2] at ht
        exact ih [] (by simp) t ht
      · rw [if_neg h2] at ht
        rcases List.mem_cons.mp ht with rfl | ht'
        · refine ⟨?_, ?_⟩
          · intro hrev
            exact h2 (by simp [List.isEmpty_iff, List.reverse_eq_nil_iff.mp hrev])
          · intro x hx
            exact hcur x (List.mem_reverse.mp hx)
        · exact ih [] (by simp) t ht'

/-- Every token the tokenizer produces is non-empty and drawn from
`[a-z0-9]`. -/
theorem tokenize_sound (s : String) :
    ∀ t ∈ tokenize s, t ≠ "" ∧ ∀ c ∈ t.data, isAlnumLower c = true := by
  intro t ht
  simp only [tokenize, List.mem_map] at ht
  obtain ⟨cs, hcs, rfl⟩ := ht
  have h := splitRunsAux_sound (s.data.map Char.toLower) [] (by simp) cs hcs
  refine ⟨?_, h.2⟩
  intro hmk
  exact h.1 (congrArg String.data hmk)

/-! ## Lemmas: tryMap -/

theorem tryMap_length {α β : Type} (f : α → Option β) :
    ∀ (l : List α) (out : List β), tryMap f l = some out →
      out.length = l.length := by
  intro l
  induction l with
  | nil =>
    intro out h
    simp only [tryMap] at h
    cases h
    rfl
  | cons x xs ih =>
    intro out h
    simp only [tryMap] at h
    cases hx : f x with
    | none => rw [hx] at h; cases h
    | some y =>
      rw [hx] at h
      cases hxs : tryMap f xs with
      | none => rw [hxs] at h; cases h
      | some ys =>
        rw [hxs] at h
        cases h
        simp [ih ys hxs]

theorem tryMap_some {α β : Type} (f : α → Option β) (g : α → β) :
    ∀ (l : List α), (∀ x ∈ l, f x = some (g x)) →
      tryMap f l = some (l.map g) := by
  intro l
  induction l with
  | nil => intro _; rfl
  | cons x xs ih =>
    intro h
    simp only [tryMap, h x (List.mem_cons_self x xs),
      ih (fun y hy => h y (List.mem_cons_of_mem x hy)), List.map_cons]

/-! ## Lemmas: enumerate -/

theorem mapSnd_enumFrom {α : Type} (l : List α) :
    ∀ n, (List.enumFrom n l).map Prod.snd = l := by
  induction l with
  | nil => intro n; rfl
  | cons x xs ih => intro n; simp [List.enumFrom, ih]

theorem mapSnd_enum {α : Type} (l : List α) : l.enum.map Prod.snd = l :=
  mapSnd_enumFrom l 0

/-! ## Lemmas: dictionary-based RRF accumulation -/

/-- Folding `dictAdd` over a list of (key, weight) pairs — the generic
shape of the two accumulation loops of `HybridRetriever.retrieve`. -/
def dfold (d : List (String × ℚ)) (ps : List (String × ℚ)) :
    List (String × ℚ) :=
  ps.foldl (fun d p => dictAdd d p.1 p.2) d

/-- Total weight a pair list carries for key `t`. -/
def sumWeights (ps : List (String × ℚ)) (t : String) : ℚ :=
  (ps.map (fun p => if p.1 = t then p.2 else 0)).sum

theorem rrfAccum_eq_dfold (k : Nat) (d : List (String × ℚ))
    (res : List String) :
    rrfAccum k d res =
      dfold d (res.enum.map (fun p => (p.2, 1 / ((k : ℚ) + p.1 + 1)))) := by
  simp [rrfAccum, dfold, List.foldl_map]

theorem sumWeights_nil (t : String) : sumWeights [] t = 0 := rfl

theorem sumWeights_cons (k : String) (v : ℚ) (ps : List (String × ℚ))
    (t : String) :
    sumWeights ((k, v) :: ps) t =
      (if k = t then v else 0) + sumWeights ps t := by
  simp [sumWeights]

theorem sumWeights_append (ps qs : List (String × ℚ)) (t : String) :
    sumWeights (ps ++ qs) t = sumWeights ps t + sumWeights qs t := by
  simp [sumWeights]

theorem sumWeights_eq_zero (ps : List (String × ℚ)) (t : String)
    (h : t ∉ ps.map Prod.fst) : sumWeights ps t = 0 := by
  induction ps with
  | nil => rfl
  | cons p ps ih =>
    obtain ⟨k, v⟩ := p
    simp only [List.map_cons, List.mem_cons] at h
    push_neg at h
    rw [sumWeights_cons, if_neg (fun hk => h.1 hk.symm), ih h.2, add_zero]

theorem sumWeights_dictAdd (d : List (String × ℚ)) (k : String) (v : ℚ)
    (t : String) :
    sumWeights (dictAdd d k v) t =
      sumWeights d t + (if k = t then v else 0) := by
  induction d with
  | nil =>
    simp only [dictAdd, sumWeights_cons, sumWeights_nil]
    ring
  | cons p rest ih =>
    obtain ⟨k', v'⟩ := p
    simp only [dictAdd]
    by_cases h : k' = k
    · rw [if_pos h, sumWeights_cons, sumWeights_cons]
      subst h
      split_ifs with h'
      · ring
      · ring
    · rw [if_neg h, sumWeights_cons, sumWeights_cons, ih]
      ring

theorem dictAdd_keys (d : List (String × ℚ)) (k : String) (v : ℚ) :
    (dictAdd d k v).map Prod.fst =
      if k ∈ d.map Prod.fst then d.map Prod.fst
      else d.map Prod.fst ++ [k] := by
  induction d with
  | nil => simp [dictAdd]
  | cons p rest ih =>
    obtain ⟨k', v'⟩ := p
    by_cases h : k' = k
    · subst h
      simp [dictAdd]
    · simp only [dictAdd, if_neg h, List.map_cons, ih, List.mem_cons]
      have hne : ¬ k = k' := fun hk => h hk.symm
      by_cases hm : k ∈ rest.map Prod.fst
      · simp [hm, hne]
      · simp [hm, hne]

theorem dictAdd_keys_nodup (d : List (String × ℚ)) (k : String) (v : ℚ)
    (hd : (d.map Prod.fst).Nodup) :
    ((dictAdd d k v).map Prod.fst).Nodup := by
  rw [dictAdd_keys]
  by_cases hm : k ∈ d.map Prod.fst
  · simpa [hm] using hd
  · simp only [if_neg hm]
    simp [List.nodup_append, hd, hm]

/-! ## Lemmas: first-occurrence deduplication -/

theorem firstDedupAux_congr (l : List String) :
    ∀ s₁ s₂, (∀ y, y ∈ s₁ ↔ y ∈ s₂) →
      firstDedupAux s₁ l = firstDedupAux s₂ l := by
  induction l with
  | nil => intro s₁ s₂ _; rfl
  | cons x xs ih =>
    intro s₁ s₂ h
    simp only [firstDedupAux]
    by_cases hx : x ∈ s₁
    · rw [if_pos hx, if_pos ((h x).mp hx)]
      exact ih s₁ s₂ h
    · rw [if_neg hx, if_neg (fun hx2 => hx ((h x).mpr hx2))]
      refine congrArg (x :: ·) (ih (x :: s₁) (x :: s₂) ?_)
      intro y
      simp only [List.mem_cons]
      exact or_congr Iff.rfl (h y)

theorem firstDedupAux_append (l₁ : List String) :
    ∀ (seen l₂ : List String),
      firstDedupAux seen (l₁ ++ l₂) =
        firstDedupAux seen l₁ ++ firstDedupAux (l₁ ++ seen) l₂ := by
  induction l₁ with
  | nil => intro seen l₂; rfl
  | cons x l₁ ih =>
    intro seen l₂
    simp only [List.cons_append, firstDedupAux, List.append_eq]
    by_cases hx : x ∈ seen
    · simp only [if_pos hx]
      rw [ih seen l₂]
      refine congrArg (firstDedupAux seen l₁ ++ ·) (firstDedupAux_congr l₂ _ _ ?_)
      intro y
      simp only [List.mem_append, List.mem_cons]
      constructor
      · exact fun h => Or.inr h
      · rintro (rfl | h)
        · exact Or.inr hx
        · exact h
    · simp only [if_neg hx]
      rw [ih (x :: seen) l₂, List.cons_append]
      refine congrArg (x :: ·)
        (congrArg (firstDedupAux (x :: seen) l₁ ++ ·)
          (firstDedupAux_congr l₂ _ _ ?_))
      intro y
      simp only [List.mem_append, List.mem_cons]
      tauto

theorem mem_firstDedupAux (l : List String) :
    ∀ seen y, y ∈ firstDedupAux seen l → y ∉ seen := by
  induction l with
  | nil => intro seen y h; cases h
  | cons x xs ih =>
    intro seen y h
    simp only [firstDedupAux] at h
    by_cases hx : x ∈ seen
    · rw [if_pos hx] at h
      exact ih seen y h
    · rw [if_neg hx] at h
      rcases List.mem_cons.mp h with rfl | h'
      · exact hx
      · intro hy
        exact ih (x :: seen) y h' (List.mem_cons_of_mem x hy)

theorem firstDedupAux_nodup (l : List String) :
    ∀ seen, (firstDedupAux seen l).Nodup := by
  induction l with
  | nil => intro seen; exact List.nodup_nil
  | cons x xs ih =>
    intro seen
    simp only [firstDedupAux]
    by_cases hx : x ∈ seen
    · rw [if_pos hx]; exact ih seen
    · rw [if_neg hx]
      refine List.nodup_cons.mpr ⟨?_, ih (x :: seen)⟩
      intro hmem
      exact mem_firstDedupAux xs (x :: seen) x hmem (List.mem_cons_self x seen)

theorem firstDedup_nodup (l : List String) : (firstDedup l).Nodup :=
  firstDedupAux_nodup l []

theorem firstDedupAux_eq_self (l : List String) :
    ∀ seen, l.Nodup → (∀ y ∈ l, y ∉ seen) → firstDedupAux seen l = l := by
  induction l with
  | nil => intro seen _ _; rfl
  | cons x xs ih =>
    intro seen hnd hout
    simp only [firstDedupAux, if_neg (hout x (List.mem_cons_self x xs))]
    refine congrArg (x :: ·) (ih (x :: seen) (List.nodup_cons.mp hnd).2 ?_)
    intro y hy
    simp only [List.mem_cons]
    push_neg
    exact ⟨fun hxy => (List.nodup_cons.mp hnd).1 (hxy ▸ hy),
      hout y (List.mem_cons_of_mem x hy)⟩

theorem firstDedup_eq_self (l : List String) (h : l.Nodup) :
    firstDedup l = l :=
  firstDedupAux_eq_self l [] h (by simp)

theorem firstDedup_append_cons (l₁ l₂ : List String) (k : String)
    (hk : k ∈ l₁) :
    firstDedup (l₁ ++ k :: l₂) = firstDedup (l₁ ++ l₂) := by
  unfold firstDedup
  rw [firstDedupAux_append l₁ [] (k :: l₂), firstDedupAux_append l₁ [] l₂]
  refine congrArg _ ?_
  simp only [firstDedupAux, List.mem_append]
  rw [if_pos (Or.inl hk)]

/-! ## Lemmas: the accumulated dictionary is the spec's score table -/

theorem dict_eq_keys_map (d : List (String × ℚ))
    (hd : (d.map Prod.fst).Nodup) :
    d = (d.map Prod.fst).map (fun t => (t, sumWeights d t)) := by
  induction d with
  | nil => rfl
  | cons p rest ih =>
    obtain ⟨k, v⟩ := p
    simp only [List.map_cons, List.nodup_cons] at hd ⊢
    refine List.cons_eq_cons.mpr ⟨?_, ?_⟩
    · rw [sumWeights_cons, if_pos rfl,
        sumWeights_eq_zero rest k hd.1, add_zero]
    · have hmap :
          (rest.map Prod.fst).map
              (fun t => (t, sumWeights ((k, v) :: rest) t)) =
            (rest.map Prod.fst).map (fun t => (t, sumWeights rest t)) := by
        refine List.map_congr_left ?_
        intro t ht
        have hne : ¬ k = t := fun hk => hd.1 (hk ▸ ht)
        rw [sumWeights_cons, if_neg hne, zero_add]
      rw [hmap]
      exact ih hd.2

theorem dfold_keys_nodup (ps : List (String × ℚ)) :
    ∀ d, (d.map Prod.fst).Nodup → ((dfold d ps).map Prod.fst).Nodup := by
  induction ps with
  | nil => intro d hd; exact hd
  | cons p ps ih =>
    intro d hd
    exact ih (dictAdd d p.1 p.2) (dictAdd_keys_nodup d p.1 p.2 hd)

theorem dfold_spec (ps : List (String × ℚ)) :
    ∀ d, (d.map Prod.fst).Nodup →
      dfold d ps =
        (firstDedup (d.map Prod.fst ++ ps.map Prod.fst)).map
          (fun t => (t, sumWeights d t + sumWeights ps t)) := by
  induction ps with
  | nil =>
    intro d hd
    simp only [List.map_nil, List.append_nil, sumWeights_nil, add_zero]
    rw [firstDedup_eq_self (d.map Prod.fst) hd]
    exact dict_eq_keys_map d hd
  | cons p ps ih =>
    intro d hd
    obtain ⟨k, v⟩ := p
    have hstep : dfold d ((k, v) :: ps) = dfold (dictAdd d k v) ps := rfl
    rw [hstep, ih (dictAdd d k v) (dictAdd_keys_nodup d k v hd)]
    have hfun :
        (fun t => (t, sumWeights (dictAdd d k v) t + sumWeights ps t)) =
          (fun t => (t, sumWeights d t + sumWeights ((k, v) :: ps) t)) := by
      funext t
      rw [sumWeights_dictAdd, sumWeights_cons]
      ring_nf
    rw [hfun, dictAdd_keys]
    by_cases hk : k ∈ d.map Prod.fst
    · rw [if_pos hk, List.map_cons,
        ← firstDedup_append_cons (d.map Prod.fst) (ps.map Prod.fst) k hk]
    · rw [if_neg hk, List.map_cons, List.append_assoc, List.singleton_append]

/-- The two accumulation loops of `HybridRetriever.retrieve` produce
exactly the spec's score table: the distinct chunk texts in
first-encountered order, each paired with its summed partial scores. -/
theorem rrfAccum_chain (k : Nat) (vres bres : List String) :
    rrfAccum k (rrfAccum k [] vres) bres =
      (firstDedup (vres ++ bres)).map
        (fun t => (t, rrfContrib k vres t + rrfContrib k bres t)) := by
  rw [rrfAccum_eq_dfold, rrfAccum_eq_dfold]
  have hjoin :
      dfold
        (dfold []
          (vres.enum.map (fun p => (p.2, 1 / ((k : ℚ) + p.1 + 1)))))
        (bres.enum.map (fun p => (p.2, 1 / ((k : ℚ) + p.1 + 1)))) =
      dfold []
        (vres.enum.map (fun p => (p.2, 1 / ((k : ℚ) + p.1 + 1))) ++
          bres.enum.map (fun p => (p.2, 1 / ((k : ℚ) + p.1 + 1)))) := by
    simp [dfold, List.foldl_append]
  rw [hjoin, dfold_spec _ [] (by simp)]
  have hkeys :
      ∀ (res : List String),
        (res.enum.map (fun p => (p.2, 1 / ((k : ℚ) + p.1 + 1)))).map
            Prod.fst = res := by
    intro res
    rw [List.map_map]
    exact mapSnd_enum res
  have hsw :
      ∀ (res : List String) (t : String),
        sumWeights (res.enum.map (fun p => (p.2, 1 / ((k : ℚ) + p.1 + 1)))) t
          = rrfContrib k res t := by
    intro res t
    simp only [sumWeights, rrfContrib, List.map_map]
    rfl
  simp only [List.map_nil, List.nil_append, List.map_append, hkeys,
    sumWeights_nil, zero_add, sumWeights_append, hsw]

/-- `HybridRetriever.retrieve` computes exactly the spec's
reciprocal-rank fusion of the two sub-retrievers' candidate lists. -/
theorem hybrid_retrieve_eq_spec (r : HybridRetriever) (query : String)
    (top_k : Nat) (vres bres : List String)
    (hv : r.vector.retrieve query (min (top_k * 3) r.chunks.length) =
      some vres)
    (hb : r.bm25.retrieve query (min (top_k * 3) r.chunks.length) =
      some bres) :
    r.retrieve query top_k = some (rrfFusionSpec r.rrf_k top_k vres bres) := by
  simp only [HybridRetriever.retrieve]
  rw [hv]
  simp only [Option.bind_eq_bind, Option.some_bind]
  rw [hb]
  simp only [Option.some_bind, Option.pure_def]
  refine congrArg some ?_
  rw [rrfAccum_chain, rrfFusionSpec,
    pySortDesc_map (fun p : String × ℚ => p.2)
      (fun t => (t, rrfContrib r.rrf_k vres t + rrfContrib r.rrf_k bres t))
      (firstDedup (vres ++ bres))]
  rw [← List.map_take, List.map_map]
  simp [Function.comp_def]

/-! ## Lemmas: sparse retrieval -/

theorem tryMap_text_of_lt (cs : List Chunk) (l : List Nat)
    (h : ∀ i ∈ l, i < cs.length) :
    tryMap (fun i => (cs[i]?).map Chunk.text) l =
      some (l.map (fun i => (cs.getD i default).text)) := by
  refine tryMap_some _ _ l ?_
  intro i hi
  have hlt := h i hi
  rw [List.getElem?_eq_getElem hlt, List.getD_eq_getElem?_getD,
    List.getElem?_eq_getElem hlt]
  rfl

/-- `BM25Retriever.retrieve` succeeds (given the scorer's one-score-per-
document contract) and returns the texts of the first `top_k` document
indices of the stable descending ranking. -/
theorem bm25_retrieve_eq (r : BM25Retriever) (query : String) (top_k : Nat)
    (hlen : (r.getScores r.corpusTokens (tokenize query)).length =
      r.chunks.length) :
    r.retrieve query top_k =
      some
        (((pySortDesc
              (fun i =>
                (r.getScores r.corpusTokens (tokenize query)).getD i 0)
              (List.range r.chunks.length)).take top_k).map
          (fun i => (r.chunks.getD i default).text)) := by
  simp only [BM25Retriever.retrieve, hlen]
  refine tryMap_text_of_lt r.chunks _ ?_
  intro i hi
  have hmem := List.take_subset top_k _ hi
  have hmem2 :=
    (perm_pySortDesc
        (fun i => (r.getScores r.corpusTokens (tokenize query)).getD i 0)
        (List.range r.chunks.length)).mem_iff.mp hmem
  exact List.mem_range.mp hmem2

theorem bm25_retrieve_length (r : BM25Retriever) (q : String) (k : Nat)
    (out : List String) (h : r.retrieve q k = some out) :
    out.length ≤ k := by
  have hl := tryMap_length _ _ out h
  rw [hl]
  exact le_trans (List.length_take_le k _) (le_refl k)

/-! ## Lemmas: dense retrieval -/

theorem faissSearch_length (index : List (List ℚ)) (q : List ℚ) (k : Nat) :
    (faissSearch index q k).length = k := by
  simp only [faissSearch, List.length_append, List.length_map,
    List.length_take, length_pySortDesc, List.length_range,
    List.length_replicate]
  omega

theorem vector_retrieve_length (r : VectorRetriever) (q : String) (k : Nat)
    (out : List String) (h : r.retrieve q k = some out) :
    out.length ≤ k := by
  have hl := tryMap_length _ _ out h
  rw [hl]
  calc (List.filter _ (faissSearch r.index (r.embed q) k)).length
      ≤ (faissSearch r.index (r.embed q) k).length :=
        List.length_filter_le _ _
    _ = k := faissSearch_length _ _ _

/-! ## Lemmas: hybrid retrieval output shape -/

theorem rrfAccum_chain_keys_nodup (k : Nat) (vres bres : List String) :
    ((rrfAccum k (rrfAccum k [] vres) bres).map Prod.fst).Nodup := by
  rw [rrfAccum_eq_dfold, rrfAccum_eq_dfold]
  have hjoin :
      dfold
        (dfold []
          (vres.enum.map (fun p => (p.2, 1 / ((k : ℚ) + p.1 + 1)))))
        (bres.enum.map (fun p => (p.2, 1 / ((k : ℚ) + p.1 + 1)))) =
      dfold []
        (vres.enum.map (fun p => (p.2, 1 / ((k : ℚ) + p.1 + 1))) ++
          bres.enum.map (fun p => (p.2, 1 / ((k : ℚ) + p.1 + 1)))) := by
    simp [dfold, List.foldl_append]
  rw [hjoin]
  exact dfold_keys_nodup _ [] (by simp)

theorem hybrid_retrieve_shape (r : HybridRetriever) (q : String) (k : Nat)
    (out : List String) (h : r.retrieve q k = some out) :
    out.length ≤ k ∧ out.Nodup := by
  simp only [HybridRetriever.retrieve, Option.bind_eq_bind] at h
  cases hv : r.vector.retrieve q (min (k * 3) r.chunks.length) with
  | none => rw [hv] at h; cases h
  | some vres =>
    rw [hv, Option.some_bind] at h
    cases hb : r.bm25.retrieve q (min (k * 3) r.chunks.length) with
    | none => rw [hb] at h; cases h
    | some bres =>
      rw [hb, Option.some_bind, Option.pure_def, Option.some_inj] at h
      subst h
      constructor
      · calc (List.map Prod.fst
              (List.take k
                (pySortDesc (fun p => p.2)
                  (rrfAccum r.rrf_k (rrfAccum r.rrf_k [] vres)
                    bres)))).length
            = (List.take k
                (pySortDesc (fun p => p.2)
                  (rrfAccum r.rrf_k (rrfAccum r.rrf_k [] vres)
                    bres))).length := List.length_map _ _
          _ ≤ k := List.length_take_le k _
      · have hnodup := rrfAccum_chain_keys_nodup r.rrf_k vres bres
        have hperm :
            ((pySortDesc (fun p : String × ℚ => p.2)
                (rrfAccum r.rrf_k (rrfAccum r.rrf_k [] vres) bres)).map
              Prod.fst).Perm
              ((rrfAccum r.rrf_k (rrfAccum r.rrf_k [] vres) bres).map
                Prod.fst) :=
          (perm_pySortDesc _ _).map Prod.fst
        have hsorted := (hperm.nodup_iff).mpr hnodup
        have hsub :
            (List.map Prod.fst
                (List.take k
                  (pySortDesc (fun p : String × ℚ => p.2)
                    (rrfAccum r.rrf_k (rrfAccum r.rrf_k [] vres)
                      bres)))).Sublist
              ((pySortDesc (fun p : String × ℚ => p.2)
                  (rrfAccum r.rrf_k (rrfAccum r.rrf_k [] vres) bres)).map
                Prod.fst) :=
          (List.take_sublist k _).map Prod.fst
        exact hsorted.sublist hsub

/-! ## Lemmas: runner accumulation -/

theorem mem_combosOf (retNames genNames : List String) (a b : String) :
    (a, b) ∈ combosOf retNames genNames ↔ a ∈ retNames ∧ b ∈ genNames := by
  simp only [combosOf, List.mem_flatMap, List.mem_map, Prod.mk.injEq]
  constructor
  · rintro ⟨r, hr, g, hg, rfl, rfl⟩
    exact ⟨hr, hg⟩
  · rintro ⟨ha, hb⟩
    exact ⟨a, ha, b, hb, rfl, rfl⟩

theorem combosOf_nodup (retNames genNames : List String)
    (hr : retNames.Nodup) (hg : genNames.Nodup) :
    (combosOf retNames genNames).Nodup := by
  induction retNames with
  | nil => exact List.nodup_nil
  | cons r rs ih =>
    simp only [combosOf, List.flatMap_cons]
    rw [List.nodup_append]
    refine ⟨?_, ih (List.nodup_cons.mp hr).2, ?_⟩
    · refine hg.map ?_
      intro g₁ g₂ hgg
      exact (Prod.ext_iff.mp hgg).2
    · intro p hp hp2
      obtain ⟨g, _, rfl⟩ := List.mem_map.mp hp
      have := (mem_combosOf rs genNames r g).mp hp2
      exact (List.nodup_cons.mp hr).1 this.1

theorem foldl_stepCombo_not_mem (env : RunEnv) (q : String)
    (cs : List (String × String)) :
    ∀ (a : String × String → AccEntry) (c : String × String), c ∉ cs →
      cs.foldl (stepCombo env q) a c = a c := by
  induction cs with
  | nil => intro a c _; rfl
  | cons d ds ih =>
    intro a c hc
    have hne : c ≠ d := fun h => hc (h ▸ List.mem_cons_self d ds)
    have hrest : c ∉ ds := fun h => hc (List.mem_cons_of_mem d h)
    calc (d :: ds).foldl (stepCombo env q) a c
        = ds.foldl (stepCombo env q) (stepCombo env q a d) c := rfl
      _ = stepCombo env q a d c := ih (stepCombo env q a d) c hrest
      _ = a c := by simp [stepCombo, hne]

theorem foldl_stepCombo_mem (env : RunEnv) (q : String)
    (cs : List (String × String)) :
    ∀ (a : String × String → AccEntry) (c : String × String),
      cs.Nodup → c ∈ cs →
      cs.foldl (stepCombo env q) a c = pushEntry env q c (a c) := by
  induction cs with
  | nil => intro a c _ hc; cases hc
  | cons d ds ih =>
    intro a c hnd hc
    rcases List.mem_cons.mp hc with rfl | hc'
    · have hnot : c ∉ ds := (List.nodup_cons.mp hnd).1
      calc (c :: ds).foldl (stepCombo env q) a c
          = ds.foldl (stepCombo env q) (stepCombo env q a c) c := rfl
        _ = stepCombo env q a c c :=
            foldl_stepCombo_not_mem env q ds (stepCombo env q a c) c hnot
        _ = pushEntry env q c (a c) := by simp [stepCombo]
    · have hne : c ≠ d := by
        intro h
        subst h
        exact (List.nodup_cons.mp hnd).1 hc'
      calc (d :: ds).foldl (stepCombo env q) a c
          = ds.foldl (stepCombo env q) (stepCombo env q a d) c := rfl
        _ = pushEntry env q c (stepCombo env q a d c) :=
            ih (stepCombo env q a d) c (List.nodup_cons.mp hnd).2 hc'
        _ = pushEntry env q c (a c) := by simp [stepCombo, hne]

theorem foldl_questions (env : RunEnv) (combos : List (String × String))
    (hnd : combos.Nodup) (c : String × String) (hc : c ∈ combos) :
    ∀ (qs : List String) (a : String × String → AccEntry),
      qs.foldl (fun acc q => combos.foldl (stepCombo env q) acc) a c =
        qs.foldl (fun e q => pushEntry env q c e) (a c) := by
  intro qs
  induction qs with
  | nil => intro a; rfl
  | cons q qs ih =>
    intro a
    calc (q :: qs).foldl (fun acc q => combos.foldl (stepCombo env q) acc)
          a c
        = qs.foldl (fun acc q => combos.foldl (stepCombo env q) acc)
            (combos.foldl (stepCombo env q) a) c := rfl
      _ = qs.foldl (fun e q => pushEntry env q c e)
            (combos.foldl (stepCombo env q) a c) :=
          ih (combos.foldl (stepCombo env q) a)
      _ = qs.foldl (fun e q => pushEntry env q c e)
            (pushEntry env q c (a c)) := by
          rw [foldl_stepCombo_mem env q combos a c hnd hc]

theorem accLoop_fields (env : RunEnv) (c : String × String) :
    ∀ (qs : List String) (e : AccEntry),
      qs.foldl (fun e q => pushEntry env q c e) e =
        { retrieval_times :=
            e.retrieval_times ++ qs.map (env.retrieval_ms c)
          generation_times :=
            e.generation_times ++ qs.map (env.generation_ms c)
          token_counts := e.token_counts ++ qs.map (env.tokens_used c)
          samples := e.samples ++ qs.map (fun q =>
            { question := q, answer := env.answer c q,
              contexts := env.contexts c q,
              ground_truth := env.ground_truth q })
          per_question := e.per_question ++ qs.map (fun q =>
            { question := q,
              retrieval_ms := pyRound1 (env.retrieval_ms c q),
              generation_ms := pyRound1 (env.generation_ms c q),
              tokens := env.tokens_used c q }) } := by
  intro qs
  induction qs with
  | nil => intro e; simp
  | cons q qs ih =>
    intro e
    calc (q :: qs).foldl (fun e q => pushEntry env q c e) e
        = qs.foldl (fun e q => pushEntry env q c e)
            (pushEntry env q c e) := rfl
      _ = _ := by rw [ih (pushEntry env q c e)]; simp [pushEntry]

/-! ## Concrete instances used by witnesses and counterexamples -/

/-- A simple deterministic scorer (query-term overlap count) used to
instantiate the abstract `BM25Okapi.get_scores` contract in concrete
examples; any fixed scorer exhibits the tie behaviour, since identical
documents receive identical scores under every deterministic scorer. -/
def overlapScores (corpus : List (List String)) (query : List String) :
    List ℚ :=
  corpus.map (fun doc => ((doc.filter (fun t => query.contains t)).length : ℚ))

/-- A concrete embedding provider: one-dimensional length embedding. -/
def exEmbed : String → List ℚ := fun s => [(s.length : ℚ)]

def chA : Chunk := { id := "a", source := "s", text := "alpha", position := 0 }

def chB : Chunk := { id := "b", source := "s", text := "beta", position := 1 }

def chDup1 : Chunk :=
  { id := "d1", source := "s", text := "same text", position := 0 }

def chDup2 : Chunk :=
  { id := "d2", source := "s", text := "same text", position := 1 }

/-- A sparse retriever set up on a two-chunk corpus. -/
def exBM25s : BM25Retriever :=
  ({ getScores := overlapScores } : BM25Retriever).setup [chA, chB]

/-- A sparse retriever set up on a corpus whose two chunks share one
text. -/
def exBM25dup : BM25Retriever :=
  ({ getScores := overlapScores } : BM25Retriever).setup [chDup1, chDup2]

/-- A dense retriever set up on a two-chunk corpus. -/
def exVectorS : VectorRetriever :=
  ({ embed := exEmbed } : VectorRetriever).setup [chA, chB] 1 2

/-- A hybrid retriever set up on a one-chunk corpus. -/
def exHybrid1 : HybridRetriever :=
  ({ vector := { embed := exEmbed }, bm25 := { getScores := overlapScores } } :
    HybridRetriever).setup [chA] 1 2

/-- A fresh (never set up) dense retriever sharing `exVectorS`'s embedding
model. -/
def exVectorFresh : VectorRetriever := { embed := exEmbed }

/-- A concrete benchmark environment with constant measurements. -/
def exEnv : RunEnv :=
  { retrieval_ms := fun _ _ => 2
    generation_ms := fun _ _ => 3
    tokens_used := fun _ _ => 7
    answer := fun _ _ => "a"
    contexts := fun _ _ => []
    ground_truth := fun _ => "g"
    judge := fun _ => []
    setupMetricsOf := fun _ => {} }

theorem intOfNat_eq_cast (n : Nat) : Int.ofNat n = (n : ℤ) := rfl

theorem pyGet_ofNat {α : Type} (xs : List α) (j : Nat) :
    pyGet xs (j : ℤ) = xs[j]? := by
  have h1 : ¬ ((j : ℤ) < 0) := by omega
  have h2 : (0 : ℤ) ≤ (j : ℤ) := by omega
  simp only [pyGet]
  rw [if_neg h1, if_pos h2, Int.toNat_ofNat]

theorem pyGet_neg_one {α : Type} (xs : List α) (h : xs ≠ []) :
    pyGet xs (-1) = some (xs.getLast h) := by
  have hpos : 0 < xs.length := List.length_pos.mpr h
  have h1 : (-1 : ℤ) < 0 := by decide
  have h2 : (0 : ℤ) ≤ -1 + xs.length := by omega
  simp only [pyGet]
  rw [if_pos h1, if_pos h2]
  have htn : ((-1 : ℤ) + xs.length).toNat = xs.length - 1 := by omega
  rw [htn]
  have hlt : xs.length - 1 < xs.length := by omega
  rw [List.getElem?_eq_getElem hlt, List.getLast_eq_getElem]

theorem getD_replicate {α : Type} (a d : α) :
    ∀ (n i : Nat), i < n → (List.replicate n a).getD i d = a := by
  intro n
  induction n with
  | zero => intro i h; omega
  | succ m ih =>
    intro i h
    cases i with
    | zero => rfl
    | succ i2 => exact ih i2 (by omega)

/-! ## Claim theorems -/

/-- C1: for every corpus and query, the hybrid retriever's
`retrieve(query, top_k)` computes `candidate_k = min(top_k * 3,
corpus_size)`, requests `candidate_k` results from the dense and sparse
sub-retrievers, scores the chunk at 0-indexed rank `r` of each sub-list
with `1 / (rrf_k + r + 1)`, sums partial scores per distinct chunk text
(absence contributing 0), sorts by summed score descending with ties in
first-encountered order (dense before sparse, in rank order), and returns
the first `top_k` texts — i.e. it returns exactly `rrfFusionSpec`. -/
theorem hybrid_rrf_fusion_spec (r : HybridRetriever) (query : String)
    (top_k : Nat) (vres bres : List String)
    (hv : r.vector.retrieve query (min (top_k * 3) r.chunks.length) =
      some vres)
    (hb : r.bm25.retrieve query (min (top_k * 3) r.chunks.length) =
      some bres) :
    r.retrieve query top_k = some (rrfFusionSpec r.rrf_k top_k vres bres) :=
  hybrid_retrieve_eq_spec r query top_k vres bres hv hb

theorem hybrid_rrf_fusion_spec_witness :
    exHybrid1.retrieve "x" 1 =
      some (rrfFusionSpec 60 1 ["alpha"] ["alpha"]) :=
  hybrid_rrf_fusion_spec exHybrid1 "x" 1 ["alpha"] ["alpha"] (by decide)
    (by decide)

/-- C3: for every indexed corpus and query, the sparse retriever returns
the texts of the first `top_k` indices of a ranking of all document
indices that is (i) a permutation of the corpus positions, (ii) sorted by
strictly descending BM25 score with equal-score positions in original
corpus order, and (iii) identical on repeated calls. The hypothesis is
the scorer's one-score-per-document contract. -/
theorem bm25_ranking_stable (r : BM25Retriever) (query : String)
    (top_k : Nat)
    (hlen : (r.getScores r.corpusTokens (tokenize query)).length =
      r.chunks.length) :
    ∃ ranking : List Nat,
      r.retrieve query top_k =
          some ((ranking.take top_k).map
            (fun i => (r.chunks.getD i default).text)) ∧
        ranking.Perm (List.range r.chunks.length) ∧
        ranking.Pairwise (fun i j =>
          (r.getScores r.corpusTokens (tokenize query)).getD j 0 <
              (r.getScores r.corpusTokens (tokenize query)).getD i 0 ∨
            ((r.getScores r.corpusTokens (tokenize query)).getD i 0 =
                (r.getScores r.corpusTokens (tokenize query)).getD j 0 ∧
              i < j)) ∧
        r.retrieve query top_k = r.retrieve query top_k := by
  refine
    ⟨pySortDesc
        (fun i => (r.getScores r.corpusTokens (tokenize query)).getD i 0)
        (List.range r.chunks.length),
      bm25_retrieve_eq r query top_k hlen, perm_pySortDesc _ _, ?_, rfl⟩
  exact pairwise_pySortDesc _ (· < ·) _ (List.pairwise_lt_range _)

theorem bm25_ranking_stable_witness :
    ∃ ranking : List Nat,
      exBM25s.retrieve "x" 1 =
          some ((ranking.take 1).map
            (fun i => (exBM25s.chunks.getD i default).text)) ∧
        ranking.Perm (List.range exBM25s.chunks.length) ∧
        ranking.Pairwise (fun i j =>
          (exBM25s.getScores exBM25s.corpusTokens (tokenize "x")).getD j 0 <
              (exBM25s.getScores exBM25s.corpusTokens
                (tokenize "x")).getD i 0 ∨
            ((exBM25s.getScores exBM25s.corpusTokens
                  (tokenize "x")).getD i 0 =
                (exBM25s.getScores exBM25s.corpusTokens
                  (tokenize "x")).getD j 0 ∧
              i < j)) ∧
        exBM25s.retrieve "x" 1 = exBM25s.retrieve "x" 1 :=
  bm25_ranking_stable exBM25s "x" 1 (by decide)

/-- C4 counterexample: the claim "the returned chunk list contains no
duplicate chunk texts" fails for the sparse retriever on a corpus whose
two chunks carry the same text — both corpus positions are returned, so
the same text appears twice. -/
theorem retrieval_dedup_counterexample :
    exBM25dup.retrieve "same" 2 = some ["same text", "same text"] ∧
      ¬ (["same text", "same text"] : List String).Nodup := by
  constructor
  · decide
  · decide

/-- C4 amended: every retriever returns at most `top_k` chunks, and the
hybrid retriever's list is additionally duplicate-free; the sparse and
dense retrievers may repeat a text (distinct chunks sharing a text, or
the dense `-1` padding). -/
theorem retrieval_shape_amended :
    (∀ (r : BM25Retriever) (q : String) (k : Nat) (out : List String),
        r.retrieve q k = some out → out.length ≤ k) ∧
      (∀ (r : VectorRetriever) (q : String) (k : Nat) (out : List String),
        r.retrieve q k = some out → out.length ≤ k) ∧
      (∀ (r : HybridRetriever) (q : String) (k : Nat) (out : List String),
        r.retrieve q k = some out → out.length ≤ k ∧ out.Nodup) :=
  ⟨bm25_retrieve_length, vector_retrieve_length, hybrid_retrieve_shape⟩

theorem retrieval_shape_amended_witness :
    (["same text", "same text"] : List String).length ≤ 2 ∧
      (["alpha"] : List String).length ≤ 1 ∧
      (["alpha"] : List String).Nodup :=
  ⟨retrieval_shape_amended.1 exBM25dup "same" 2 ["same text", "same text"]
      (by decide),
    (retrieval_shape_amended.2.2 exHybrid1 "x" 1 ["alpha"] (by decide)).1,
    (retrieval_shape_amended.2.2 exHybrid1 "x" 1 ["alpha"] (by decide)).2⟩

/-- C5: `retrieve_and_time` raises the precondition `RuntimeError` on
every instance whose setup has not completed; after a successful
`setup_and_time` (which marks the instance set up) it never raises that
precondition error (its failures, if any, are `IndexError`s from
`retrieve` itself). -/
theorem retrieve_requires_setup :
    (∀ (name : String) (f : String → Nat → Option (List String))
        (q : String) (k : Nat) (lat : ℚ),
        retrieveAndTime name false f q k lat =
          .error (.preconditionViolation name)) ∧
      (∀ (name : String) (f : String → Nat → Option (List String))
        (q : String) (k : Nat) (lat : ℚ),
        retrieveAndTime name true f q k lat ≠
          .error (.preconditionViolation name)) ∧
      (∀ (r : BM25Retriever) (cs : List Chunk) (t m : ℚ),
        (r.setupAndTime cs t m).isSetup = true) ∧
      (∀ (r : VectorRetriever) (cs : List Chunk) (e i t m : ℚ),
        (r.setupAndTime cs e i t m).isSetup = true) ∧
      (∀ (r : HybridRetriever) (cs : List Chunk) (e i t m : ℚ),
        (r.setupAndTime cs e i t m).isSetup = true) := by
  refine ⟨fun name f q k lat => rfl, ?_, fun r cs t m => rfl,
    fun r cs e i t m => rfl, fun r cs e i t m => rfl⟩
  intro name f q k lat h
  rw [retrieveAndTime, if_neg (by simp)] at h
  cases hf : f q k with
  | none =>
    rw [hf] at h
    exact RetrieverError.noConfusion (Except.error.inj h)
  | some cs =>
    rw [hf] at h
    exact Except.noConfusion h

theorem retrieve_requires_setup_witness :
    retrieveAndTime "BM25Retriever" false (fun _ _ => some []) "q" 5 0 =
        .error (.preconditionViolation "BM25Retriever") ∧
      retrieveAndTime "BM25Retriever" true (fun _ _ => some []) "q" 5 0 ≠
        .error (.preconditionViolation "BM25Retriever") :=
  ⟨retrieve_requires_setup.1 "BM25Retriever" (fun _ _ => some []) "q" 5 0,
    retrieve_requires_setup.2.1 "BM25Retriever" (fun _ _ => some []) "q" 5 0⟩

/-- C6: after the hybrid retriever's setup, `embedding_ms` equals the
dense sub-retriever's, `tokenizing_ms` equals the sparse
sub-retriever's, `indexing_ms` equals exactly the sum of the two
sub-retrievers' `indexing_ms`, and `total_ms`/`memory_peak_mb` are the
single measurements taken around the whole composite setup. -/
theorem hybrid_setup_metrics_aggregation (r : HybridRetriever)
    (chunks : List Chunk) (embedMs vecIndexMs totalMs memMb : ℚ) :
    ((r.setupAndTime chunks embedMs vecIndexMs totalMs
            memMb).setup_metrics.embedding_ms =
        (r.setupAndTime chunks embedMs vecIndexMs totalMs
          memMb).vector.setup_metrics.embedding_ms) ∧
      ((r.setupAndTime chunks embedMs vecIndexMs totalMs
            memMb).setup_metrics.tokenizing_ms =
        (r.setupAndTime chunks embedMs vecIndexMs totalMs
          memMb).bm25.setup_metrics.tokenizing_ms) ∧
      ((r.setupAndTime chunks embedMs vecIndexMs totalMs
            memMb).setup_metrics.indexing_ms =
        (r.setupAndTime chunks embedMs vecIndexMs totalMs
            memMb).vector.setup_metrics.indexing_ms +
          (r.setupAndTime chunks embedMs vecIndexMs totalMs
            memMb).bm25.setup_metrics.indexing_ms) ∧
      ((r.setupAndTime chunks embedMs vecIndexMs totalMs
            memMb).setup_metrics.total_ms = totalMs) ∧
      ((r.setupAndTime chunks embedMs vecIndexMs totalMs
          memMb).setup_metrics.memory_peak_mb = memMb) :=
  ⟨rfl, rfl, rfl, rfl, rfl⟩

/-- C7: `save` followed by `load` into a fresh instance with the same
embedding model yields a query-ready retriever whose `retrieve` output
is identical to the pre-save instance's for every query and `top_k`. -/
theorem save_load_roundtrip (r fresh : VectorRetriever) (q : String)
    (k : Nat) (hemb : fresh.embed = r.embed) :
    ((fresh.load (r.save).1 (r.save).2).isSetup = true) ∧
      (fresh.load (r.save).1 (r.save).2).retrieve q k = r.retrieve q k := by
  constructor
  · rfl
  · simp [VectorRetriever.load, VectorRetriever.save,
      VectorRetriever.retrieve, hemb]

theorem save_load_roundtrip_witness :
    ((exVectorFresh.load (exVectorS.save).1 (exVectorS.save).2).isSetup =
        true) ∧
      (exVectorFresh.load (exVectorS.save).1 (exVectorS.save).2).retrieve
          "x" 2 =
        exVectorS.retrieve "x" 2 :=
  save_load_roundtrip exVectorS exVectorFresh "x" 2 rfl

/-- C8 counterexample: `load` given an out-of-sync pair (here two index
vectors against one chunk) raises no `IndexCorruption` error — it has no
error path at all — and leaves the retriever query-ready, contradicting
the claim that it aborts. -/
theorem load_no_validation_counterexample :
    ((({ embed := exEmbed } : VectorRetriever).load [[1], [2]]
          [chA]).isSetup = true) ∧
      ([[1], [2]] : List (List ℚ)).length ≠ ([chA] : List Chunk).length := by
  constructor
  · rfl
  · decide

/-- C8 amended: `load` performs no consistency validation: it installs
any persisted index/chunk pair — including out-of-sync ones — verbatim
and unconditionally marks the instance query-ready. -/
theorem load_unconditional (r : VectorRetriever) (idx : List (List ℚ))
    (cks : List Chunk) :
    (r.load idx cks).isSetup = true ∧ (r.load idx cks).index = idx ∧
      (r.load idx cks).chunks = cks :=
  ⟨rfl, rfl, rfl⟩

/-- C9: the tokenizer lower-cases, splits on maximal runs outside
`[a-z0-9]` and discards empty tokens, so every token is non-empty and
contains only `[a-z0-9]` characters; it is a pure function (tokenizing
twice yields identical output), and `setup` applies the same `tokenize`
to the indexed chunks that `retrieve` applies to queries. -/
theorem tokenizer_properties :
    (∀ s : String, ∀ t ∈ tokenize s,
        t ≠ "" ∧ ∀ c ∈ t.data, isAlnumLower c = true) ∧
      (∀ s : String, tokenize s = tokenize s) ∧
      (∀ (r : BM25Retriever) (chunks : List Chunk),
        (r.setup chunks).corpusTokens =
          chunks.map (fun c => tokenize c.text)) :=
  ⟨tokenize_sound, fun _ => rfl, fun _ _ => rfl⟩

theorem tokenizer_properties_witness :
    ("cat" : String) ≠ "" ∧
      ∀ c ∈ ("cat" : String).data, isAlnumLower c = true :=
  tokenizer_properties.1 "The cat!" "cat" (by decide)

/-- C10: on a non-empty corpus of `m` chunks, a dense-retriever query
with `top_k > m` returns a list of length exactly `top_k` whose
positions at and beyond `m` all hold the last corpus chunk's text (the
search's `-1` padding passes the `i < len(self.chunks)` filter and
indexes the chunk list from the end) — not a list of length at most
`m`. -/
theorem vector_retrieve_padding (emb : String → List ℚ)
    (chunks : List Chunk) (embedMs indexMs : ℚ) (q : String) (k : Nat)
    (hne : chunks ≠ []) (hk : chunks.length < k) :
    ∃ out : List String,
      (({ embed := emb } : VectorRetriever).setup chunks embedMs
            indexMs).retrieve q k = some out ∧
        out.length = k ∧
        ∀ j : Nat, chunks.length ≤ j → j < k →
          out.getD j "" = (chunks.getLast hne).text := by
  have hnpos : 0 < chunks.length := List.length_pos.mpr hne
  set r := ({ embed := emb } : VectorRetriever).setup chunks embedMs indexMs
    with hr
  have hidx : r.index = chunks.map (fun c => emb c.text) := rfl
  have hcks : r.chunks = chunks := rfl
  have hnidx : r.index.length = chunks.length := by
    rw [hidx, List.length_map]
  set ranked :=
    pySortDesc (fun i => dot (r.embed q) (r.index.getD i []))
      (List.range r.index.length) with hranked
  have hlenr : ranked.length = chunks.length := by
    rw [hranked, length_pySortDesc, List.length_range, hnidx]
  have hmemr : ∀ j ∈ ranked, j < chunks.length := by
    intro j hj
    have := (perm_pySortDesc _ (List.range r.index.length)).mem_iff.mp hj
    rw [List.mem_range, hnidx] at this
    exact this
  have hsearch :
      faissSearch r.index (r.embed q) k =
        ranked.map Int.ofNat ++
          List.replicate (k - chunks.length) (-1) := by
    rw [faissSearch, ← hranked,
      List.take_of_length_le (by omega : ranked.length ≤ k), hnidx]
  have hfilter :
      (faissSearch r.index (r.embed q) k).filter
          (fun i => i < (r.chunks.length : ℤ)) =
        faissSearch r.index (r.embed q) k := by
    refine List.filter_eq_self.mpr ?_
    intro i hi
    rw [hsearch, List.mem_append] at hi
    rcases hi with hi | hi
    · obtain ⟨j, hj, rfl⟩ := List.mem_map.mp hi
      have := hmemr j hj
      simp only [hcks, decide_eq_true_eq, intOfNat_eq_cast]
      exact_mod_cast this
    · have := List.eq_of_mem_replicate hi
      subst this
      simp only [hcks, decide_eq_true_eq]
      omega
  have hget :
      ∀ i ∈ faissSearch r.index (r.embed q) k,
        (pyGet r.chunks i).map Chunk.text =
          some
            (if i < 0 then (chunks.getLast hne).text
             else (chunks.getD i.toNat default).text) := by
    intro i hi
    rw [hsearch, List.mem_append] at hi
    rcases hi with hi | hi
    · obtain ⟨j, hj, rfl⟩ := List.mem_map.mp hi
      have hjlt := hmemr j hj
      have hnonneg : ¬ ((j : ℤ) < 0) := by omega
      rw [intOfNat_eq_cast, if_neg hnonneg, hcks, pyGet_ofNat,
        Int.toNat_ofNat, List.getElem?_eq_getElem hjlt,
        List.getD_eq_getElem?_getD, List.getElem?_eq_getElem hjlt]
      rfl
    · have hrep := List.eq_of_mem_replicate hi
      subst hrep
      rw [if_pos (by decide : (-1 : ℤ) < 0), hcks, pyGet_neg_one chunks hne]
      rfl
  refine ⟨(faissSearch r.index (r.embed q) k).map
      (fun i => if i < 0 then (chunks.getLast hne).text
        else (chunks.getD i.toNat default).text), ?_, ?_, ?_⟩
  · show (VectorRetriever.retrieve r q k) = _
    rw [VectorRetriever.retrieve]
    rw [hfilter]
    exact tryMap_some _ _ _ hget
  · rw [List.length_map, faissSearch_length]
  · intro j hj hjk
    rw [hsearch, List.map_append, List.map_replicate,
      if_pos (by omega : (-1 : ℤ) < 0)]
    have hlen2 :
        ((ranked.map Int.ofNat).map
          (fun i => if i < 0 then (chunks.getLast hne).text
            else (chunks.getD i.toNat default).text)).length =
          chunks.length := by
      simp only [List.length_map]
      exact hlenr
    rw [List.getD_append_right _ _ _ _ (by rw [hlen2]; exact hj), hlen2]
    exact getD_replicate _ _ _ _ (by omega)

theorem vector_retrieve_padding_witness :
    ∃ out : List String,
      (({ embed := exEmbed } : VectorRetriever).setup [chA] 0
            0).retrieve "q" 3 = some out ∧
        out.length = 3 ∧
        ∀ j : Nat, ([chA] : List Chunk).length ≤ j → j < 3 →
          out.getD j "" = (([chA] : List Chunk).getLast (by decide)).text :=
  vector_retrieve_padding exEmbed [chA] 0 0 "q" 3 (by decide) (by decide)

/-- C2: for every benchmark run over `n > 0` questions (with distinct
retriever and generator names, as the source's dicts guarantee), every
produced `ComboResult` satisfies `avg_total_ms = avg_retrieval_ms +
avg_generation_ms` (exactly, in the idealised rational arithmetic that
models floats) and `per_question` has length exactly `n`. -/
theorem runner_averaging (env : RunEnv) (retNames genNames : List String)
    (questions : List String) (hr : retNames.Nodup) (hg : genNames.Nodup)
    (hn : 0 < questions.length) :
    ∀ res ∈ runAll env retNames genNames questions,
      res.avg_total_ms = res.avg_retrieval_ms + res.avg_generation_ms ∧
        res.per_question.length = questions.length := by
  intro res hres
  simp only [runAll, List.mem_map] at hres
  obtain ⟨c, hc, rfl⟩ := hres
  refine ⟨add_div _ _ _, ?_⟩
  show (questions.foldl
      (fun a q => (combosOf retNames genNames).foldl (stepCombo env q) a)
      (fun _ => {}) c).per_question.length = questions.length
  rw [foldl_questions env (combosOf retNames genNames)
      (combosOf_nodup retNames genNames hr hg) c hc questions
      (fun _ => {}),
    accLoop_fields]
  simp

theorem runner_averaging_witness :
    (((runAll exEnv ["r1"] ["g1"] ["q1"]).getD 0 default).avg_total_ms =
        ((runAll exEnv ["r1"] ["g1"] ["q1"]).getD 0
            default).avg_retrieval_ms +
          ((runAll exEnv ["r1"] ["g1"] ["q1"]).getD 0
            default).avg_generation_ms) ∧
      ((runAll exEnv ["r1"] ["g1"] ["q1"]).getD 0
          default).per_question.length = 1 := by
  have hlen : (runAll exEnv ["r1"] ["g1"] ["q1"]).length = 1 := by decide
  have h0 : 0 < (runAll exEnv ["r1"] ["g1"] ["q1"]).length := by
    rw [hlen]
    decide
  have hmem : (runAll exEnv ["r1"] ["g1"] ["q1"]).getD 0 default ∈
      runAll exEnv ["r1"] ["g1"] ["q1"] := by
    rw [List.getD_eq_getElem?_getD, List.getElem?_eq_getElem h0,
      Option.getD_some]
    exact List.getElem_mem h0
  exact runner_averaging exEnv ["r1"] ["g1"] ["q1"] (by decide) (by decide)
    (by decide) ((runAll exEnv ["r1"] ["g1"] ["q1"]).getD 0 default) hmem

end RagBench
